import Mathlib

/-!
# Verification of the yolov5-q evaluation core (`yolov5/core/evaluator.py`)

Shallow embedding of the detection-matching and metric-aggregation engine:
`Yolov5Evaluator.process_batch`, `Yolov5Evaluator.process_batch_masks`,
`Yolov5Evaluator.compute_stat`, `Yolov5Evaluator.after_infer`, and the
`Metric` class.  Real-valued tensor entries are modelled by rationals;
numpy / torch index tensors by natural numbers.

Modelling notes, written next to the definitions they concern:
* `np.unique(a, return_index=True)[1]` yields, for each distinct value in
  *ascending value order*, the index of its first occurrence; indexing the
  array with it therefore both de-duplicates and re-orders by key.
* `np.argsort` on the IoU column is modelled as a stable sort; none of the
  verified statements depends on the order of exactly-tied IoU values.
-/

namespace YoloEval

/-- Arithmetic mean of a list of rationals (`ndarray.mean()`);
division by zero only arises for the empty list, which every use guards. -/
def listMean (l : List ℚ) : ℚ := l.sum / l.length

/-- One NMS output row `x1, y1, x2, y2, conf, class`
(`detections (Array[N, 6])` in `process_batch`). -/
structure Detection where
  x1 : ℚ
  y1 : ℚ
  x2 : ℚ
  y2 : ℚ
  conf : ℚ
  cls : ℤ
deriving DecidableEq

/-- One ground-truth row `class, x1, y1, x2, y2`
(`labels (Array[M, 5])` in `process_batch`). -/
structure Label where
  cls : ℤ
  x1 : ℚ
  y1 : ℚ
  x2 : ℚ
  y2 : ℚ
deriving DecidableEq

/-- One raw target row `class, x_center, y_center, w, h`
(a row of `targets[targets[:, 0] == si, 1:]` in `compute_stat`). -/
structure TLabel where
  cls : ℤ
  x : ℚ
  y : ℚ
  w : ℚ
  h : ℚ
deriving DecidableEq

/-- Modelled from the spec: `xywh2xyxy` lives in `utils/boxes.py`, outside
the provided source; the spec's data model says labels carry
`x_center, y_center, w, h` which the evaluator converts to corner form
`x1, y1, x2, y2`. -/
def xywh2xyxyL (t : TLabel) : Label :=
  { cls := t.cls
    x1 := t.x - t.w / 2
    y1 := t.y - t.h / 2
    x2 := t.x + t.w / 2
    y2 := t.y + t.h / 2 }

/-- Modelled from the spec: `box_iou` lives in `utils/boxes.py`, outside the
provided source; the spec's glossary defines IoU as area of intersection
divided by area of union of the two boxes. -/
def boxIoU (l : Label) (d : Detection) : ℚ :=
  let iw := max 0 (min l.x2 d.x2 - max l.x1 d.x1)
  let ih := max 0 (min l.y2 d.y2 - max l.y1 d.y1)
  let inter := iw * ih
  let areaL := (l.x2 - l.x1) * (l.y2 - l.y1)
  let areaD := (d.x2 - d.x1) * (d.y2 - d.y1)
  inter / (areaL + areaD - inter)

/-- The run-constant IoU threshold vector
`self.iouv = torch.linspace(0.5, 0.95, 10)`. -/
def iouvDef : List ℚ :=
  [1/2, 11/20, 3/5, 13/20, 7/10, 3/4, 4/5, 17/20, 9/10, 19/20]

/-- The threshold count `self.niou = self.iouv.numel()`. -/
def niou : ℕ := iouvDef.length

/-- One row of the `matches` array `[label, detection, iou]` built in
`process_batch` / `process_batch_masks`. -/
structure MatchT where
  lab : ℕ
  det : ℕ
  iou : ℚ
deriving DecidableEq

/-- The candidate pairs produced by
`x = torch.where((iou >= iouv[0]) & (labels[:, 0:1] == detections[:, 5]))`
together with their IoU values, in `torch.where`'s row-major order
(labels outer, detections inner) over an explicit IoU matrix whose rows
index labels and whose columns index detections. -/
def candidatesFromMatrix (iouv : List ℚ) (iouM : List (List ℚ))
    (labels : List Label) (dets : List Detection) : List MatchT :=
  (labels.zip iouM).enum.flatMap fun p =>
    ((dets.zip p.2.2).enum.filterMap fun q =>
      if q.2.2 ≥ iouv.headD 0 ∧ p.2.1.cls = q.2.1.cls then
        some ⟨p.1, q.1, q.2.2⟩
      else none)

/-- The matrix `iou = box_iou(labels[:, 1:], detections[:, :4])`: rows are
labels, columns are detections. -/
def boxIoUMatrix (labels : List Label) (dets : List Detection) : List (List ℚ) :=
  labels.map fun l => dets.map fun d => boxIoU l d

/-- The fancy-indexing step
`matches[np.unique(matches[:, col], return_index=True)[1]]`:
for each distinct key in ascending order keep the first row carrying it.
The result is de-duplicated in `key` and re-ordered by `key` ascending,
exactly as numpy fancy-indexing with `np.unique`'s first-occurrence
indices does. -/
def npUnique (key : MatchT → ℕ) (ms : List MatchT) : List MatchT :=
  (((ms.map key).insertionSort (· ≤ ·)).dedup).filterMap fun k =>
    ms.find? fun m => key m == k

/-- The `if x[0].shape[0] > 1` de-duplication block of `process_batch`:
sort by IoU descending (`matches[matches[:, 2].argsort()[::-1]]`), keep the
first occurrence of each detection index, then of each label index; the
second re-sort by IoU is commented out in the source.  A single candidate
is left untouched. -/
def dedupMatches (c : List MatchT) : List MatchT :=
  if 1 < c.length then
    npUnique (·.lab) (npUnique (·.det)
      (c.insertionSort fun a b => b.iou ≤ a.iou))
  else c

/-- The surviving matches of `process_batch` for a box input. -/
def matchesOf (iouv : List ℚ) (dets : List Detection) (labels : List Label) :
    List MatchT :=
  dedupMatches (candidatesFromMatrix iouv (boxIoUMatrix labels dets) labels dets)

/-- The matrix `correct = torch.zeros(N, niou, dtype=torch.bool)` written by
`correct[matches[:, 1].long()] = matches[:, 2:3] >= iouv`: each surviving
match writes row `det` with the per-threshold comparisons of its IoU. -/
def correctOf (n : ℕ) (iouv : List ℚ) (ms : List MatchT) : List (List Bool) :=
  ms.foldl (fun acc m => acc.set m.det (iouv.map fun t => decide (m.iou ≥ t)))
    (List.replicate n (List.replicate iouv.length false))

/-- The matcher `Yolov5Evaluator.process_batch(detections, labels, iouv)`. -/
def process_batch (dets : List Detection) (labels : List Label)
    (iouv : List ℚ) : List (List Bool) :=
  correctOf dets.length iouv (matchesOf iouv dets labels)

/-- The mask matcher
`Yolov5Evaluator.process_batch_masks(predn, proto_out, gt_masksi, labels)`.
`π`, `μ`, `σ` stand for the prototype-tensor, ground-truth-mask and
predicted-mask tensor types; `maskOverlap` abstracts the external mask
reconstruction / interpolation / `mask_iou` steps (`utils/segment.py`, not
part of the provided source), producing the labels-by-detections mask IoU
matrix and the predicted masks.  `none` as the overall result models the
`AssertionError` raised when exactly one of `proto_out` / `gt_masksi` is
`None`; when both are `None` the source returns
`torch.zeros(0, self.niou), None`. -/
def process_batch_masks {π μ σ : Type}
    (maskOverlap : π → μ → List Detection → List Label → List (List ℚ) × σ)
    (predn : List Detection) (proto : Option π) (gt : Option μ)
    (labels : List Label) : Option (List (List Bool) × Option σ) :=
  match proto, gt with
  | none, none => some ([], none)
  | some _, none => none
  | none, some _ => none
  | some pr, some g =>
      let r := maskOverlap pr g predn labels
      some (correctOf predn.length iouvDef
        (dedupMatches (candidatesFromMatrix iouvDef r.1 labels predn)),
        some r.2)

/-- One element of `self.stats`:
`(correct_masks, correct_boxes, predn[:, 4], predn[:, 5], tcls)`. -/
structure StatRecord where
  correct_masks : List (List Bool)
  correct_boxes : List (List Bool)
  conf : List ℚ
  pcls : List ℤ
  tcls : List ℤ
deriving DecidableEq

/-- The `single_cls` class coercion `predn[:, 5] = 0`. -/
def coerceCls (d : Detection) : Detection := { d with cls := 0 }

/-- The recorder `Yolov5Evaluator.compute_stat(si, predn, targets, gt_masks,
train_out)`, restricted to one image: `predn` is the image's (cloned) prediction rows,
`tlabels` the rows of `targets[targets[:, 0] == si, 1:]`, `proto` the
image's prototype output (`train_out[1][si]` when present) and `gt` its
ground-truth masks.  The overall `none` models the `AssertionError`
propagating out of `process_batch_masks`; `some recs` returns the records
appended to `self.stats` (empty when nothing is recorded). -/
def compute_stat {π μ σ : Type}
    (maskOverlap : π → μ → List Detection → List Label → List (List ℚ) × σ)
    (single_cls : Bool) (predn : List Detection) (tlabels : List TLabel)
    (proto : Option π) (gt : Option μ) : Option (List StatRecord) :=
  let nl := tlabels.length
  let tcls : List ℤ := tlabels.map (·.cls)
  if predn.length = 0 then
    some (if nl ≠ 0 then [⟨[], [], [], [], tcls⟩] else [])
  else
    let predn2 := if single_cls then predn.map coerceCls else predn
    if nl ≠ 0 then
      let labelsn := tlabels.map xywh2xyxyL
      let correct_boxes := process_batch predn2 labelsn iouvDef
      match process_batch_masks maskOverlap predn2 proto gt labelsn with
      | none => none
      | some cm =>
          some [⟨cm.1, correct_boxes, predn2.map (·.conf),
                 predn2.map (·.cls), tcls⟩]
    else
      some [⟨List.replicate predn2.length (List.replicate niou false),
             List.replicate predn2.length (List.replicate niou false),
             predn2.map (·.conf), predn2.map (·.cls), tcls⟩]

/-- The `(p, r, ap, f1, ap_class)` tuple produced by the external
`ap_per_class` (`utils/metrics.py`, not part of the provided source),
consumed opaquely by `Metric.update`. -/
structure MetricResults where
  p : List ℚ
  r : List ℚ
  all_ap : List (List ℚ)
  f1 : List ℚ
  ap_class_index : List ℕ

/-- The `Metric` class: per-class precision / recall / F1, the per-class
per-threshold AP matrix, and the class indices the rows belong to. -/
structure Metric where
  p : List ℚ
  r : List ℚ
  f1 : List ℚ
  all_ap : List (List ℚ)
  ap_class_index : List ℕ

/-- The state after `Metric.__init__`: every field starts empty. -/
def freshMetric : Metric := ⟨[], [], [], [], []⟩

/-- Property `Metric.ap`: `all_ap.mean(1) if len(all_ap) else []` (mapping
the row mean over the empty list gives `[]`, matching the guard). -/
def Metric.ap (m : Metric) : List ℚ := m.all_ap.map listMean

/-- Property `Metric.ap50`: `all_ap[:, 0] if len(all_ap) else []`. -/
def Metric.ap50 (m : Metric) : List ℚ := m.all_ap.map (fun row => row.getD 0 0)

/-- Property `Metric.mp`: `self.p.mean() if len(self.p) else 0.0`. -/
def Metric.mp (m : Metric) : ℚ := if m.p.length ≠ 0 then listMean m.p else 0

/-- Property `Metric.mr`: `self.r.mean() if len(self.r) else 0.0`. -/
def Metric.mr (m : Metric) : ℚ := if m.r.length ≠ 0 then listMean m.r else 0

/-- Property `Metric.map50`:
`self.all_ap[:, 0].mean() if len(self.all_ap) else 0.0`. -/
def Metric.map50 (m : Metric) : ℚ :=
  if m.all_ap.length ≠ 0 then listMean (m.all_ap.map (fun row => row.getD 0 0))
  else 0

/-- Property `Metric.map`: `self.all_ap.mean() if len(self.all_ap) else 0.0`
(the grand mean over all classes and thresholds). -/
def Metric.map (m : Metric) : ℚ :=
  if m.all_ap.length ≠ 0 then listMean m.all_ap.flatten else 0

/-- Method `Metric.update(results)`. -/
def Metric.update (_ : Metric) (res : MetricResults) : Metric :=
  ⟨res.p, res.r, res.f1, res.all_ap, res.ap_class_index⟩

/-- Method `Metric.get_maps(nc)`: `maps = np.zeros(nc) + self.map` then
`maps[c] = self.ap[i]` for each `(i, c)` in `enumerate(self.ap_class_index)`. -/
def Metric.get_maps (m : Metric) (nc : ℕ) : List ℚ :=
  m.ap_class_index.enum.foldl (fun maps ic => maps.set ic.2 (m.ap.getD ic.1 0))
    (List.replicate nc m.map)

/-- The statistics portion of `Yolov5Evaluator.after_infer` (box path):
`stats = [np.concatenate(x, 0) for x in zip(*self.stats)]` followed by
`box_or_mask_any = stats[0].any() or stats[1].any()` and the guarded
`self.metric.update(...)`.  With `self.stats` empty, `zip(*self.stats)`
is empty and `stats[0]` raises `IndexError`, modelled as `none`.
`res` abstracts the external `ap_per_class` result. -/
def after_infer_metric (recs : List StatRecord) (res : MetricResults)
    (m : Metric) : Option Metric :=
  if recs.length = 0 then none
  else
    let masksCat := (recs.map (·.correct_masks)).flatten
    let boxesCat := (recs.map (·.correct_boxes)).flatten
    let box_or_mask_any :=
      masksCat.any (fun row => row.any id) || boxesCat.any (fun row => row.any id)
    if box_or_mask_any then some (m.update res) else some m

/-- Python true division, raising `ZeroDivisionError` on a zero divisor. -/
def pyDiv (a b : ℚ) : Option ℚ := if b = 0 then none else some (a / b)

/-- The per-image speed report
`t = tuple(x / self.seen * 1e3 for x in self.dt)` at the end of
`after_infer`. -/
def after_infer_speeds (dt : List ℚ) (seen : ℕ) : Option (List ℚ) :=
  dt.mapM fun x => (pyDiv x (seen : ℚ)).map (· * 1000)

/-- A store of prediction tensors, for reasoning about in-place mutation:
each index is one tensor. -/
abbrev Store : Type := List (List Detection)

/-- The clone step `predn = pred.clone()`: allocate a fresh tensor holding a copy of the
tensor at `i`; returns the new store and the clone's index. -/
def cloneTensor (s : Store) (i : ℕ) : Store × ℕ :=
  (s ++ [(s.getD i [])], s.length)

/-- The in-place `predn[:, 5] = 0` applied to the tensor at `i`. -/
def coerceInPlace (s : Store) (i : ℕ) : Store :=
  s.set i ((s.getD i []).map coerceCls)

/-- The per-image slice of `Yolov5Evaluator.run` relevant to aliasing:
`predn = pred.clone()`; `compute_stat` mutates `predn` in place
(`predn[:, 5] = 0` when `single_cls` and the image has detections); then
`save_one_txt` / `save_one_json` are called with `pred`.  Returns the
final store, then the rows `save_one_txt`/`save_one_json` read (`pred`),
then the mutated clone's rows (`predn`). -/
def runImageSave (single_cls : Bool) (s : Store) (predId : ℕ) :
    Store × List Detection × List Detection :=
  let c := cloneTensor s predId
  let s2 :=
    if single_cls ∧ (c.1.getD c.2 []).length ≠ 0 then coerceInPlace c.1 c.2
    else c.1
  (s2, s2.getD predId [], s2.getD c.2 [])

/-! ## Concrete values used by witnesses and counterexamples -/

/-- A trivial mask-overlap collaborator for instantiating the abstract
`maskOverlap` parameter in closed statements. -/
def cmUnit : Unit → Unit → List Detection → List Label → List (List ℚ) × Unit :=
  fun _ _ _ _ => ([], ())

/-- A ground-truth target row used in witnesses. -/
def tl0 : TLabel := ⟨0, 5, 5, 10, 10⟩

/-- The record `compute_stat` appends for an image with labels but no
detections. -/
def emptyRec0 : StatRecord := ⟨[], [], [], [], [0]⟩

/-! ## Theorems -/

/-- C5: `process_batch_masks` enforces the both-or-neither contract: if
exactly one of the prototype output and the ground-truth masks is `None` it
raises (`AssertionError`, modelled as `none`) rather than producing stats,
and if both are `None` it returns a zero-row correctness matrix together
with a null predicted-mask set. -/
theorem C5_mask_null_contract {π μ σ : Type}
    (maskOverlap : π → μ → List Detection → List Label → List (List ℚ) × σ)
    (predn : List Detection) (labels : List Label) :
    (∀ p : π, process_batch_masks maskOverlap predn (some p) none labels
      = none) ∧
    (∀ g : μ, process_batch_masks maskOverlap predn none (some g) labels
      = none) ∧
    process_batch_masks maskOverlap predn none none labels
      = some ([], none) :=
  ⟨fun _ => rfl, fun _ => rfl, rfl⟩

/-- C6: On a run over an empty dataset (`self.stats = []`,
`self.seen = 0`, `self.dt = [0, 0, 0]`), `after_infer` does *not* guard:
`stats[0]` raises `IndexError` and `x / self.seen` raises
`ZeroDivisionError`; both crash points evaluate to `none` in the model. -/
theorem C6_empty_dataset_crash (res : MetricResults) :
    after_infer_metric [] res freshMetric = none ∧
    after_infer_speeds [0, 0, 0] 0 = none := by
  constructor
  · rfl
  · simp only [after_infer_speeds, pyDiv, Nat.cast_zero, if_pos rfl]
    rfl

/-- C4: In `compute_stat`: with an empty detection set every produced
box-correctness matrix has zero rows regardless of the labels; with a
non-empty detection set and an empty label set, the single produced record
carries an all-false matrix with one row per detection and 10 columns. -/
theorem C4_degenerate_shapes :
    (∀ (π μ σ : Type)
      (cm : π → μ → List Detection → List Label → List (List ℚ) × σ)
      (sc : Bool) (tl : List TLabel) (p : Option π) (g : Option μ)
      (recs : List StatRecord) (r : StatRecord),
      compute_stat cm sc [] tl p g = some recs → r ∈ recs →
        r.correct_boxes = []) ∧
    (∀ (π μ σ : Type)
      (cm : π → μ → List Detection → List Label → List (List ℚ) × σ)
      (sc : Bool) (d : Detection) (ds : List Detection) (p : Option π)
      (g : Option μ), ∃ r : StatRecord,
      compute_stat cm sc (d :: ds) [] p g = some [r] ∧
      r.correct_boxes =
        List.replicate (d :: ds).length (List.replicate 10 false)) := by
  constructor
  · intro π μ σ cm sc tl p g recs r hrun hmem
    rw [compute_stat] at hrun
    simp only [List.length_nil, if_pos rfl] at hrun
    by_cases htl : tl.length ≠ 0
    · rw [if_pos htl] at hrun
      obtain rfl : recs = [⟨[], [], [], [], tl.map (·.cls)⟩] :=
        (Option.some_injective _ hrun).symm
      rcases List.mem_singleton.mp hmem with rfl
      rfl
    · rw [if_neg htl] at hrun
      obtain rfl : recs = [] := (Option.some_injective _ hrun).symm
      cases hmem
  · intro π μ σ cm sc d ds p g
    refine ⟨⟨List.replicate (if sc then (d :: ds).map coerceCls else
        d :: ds).length (List.replicate niou false),
      List.replicate (if sc then (d :: ds).map coerceCls else
        d :: ds).length (List.replicate niou false),
      (if sc then (d :: ds).map coerceCls else d :: ds).map (·.conf),
      (if sc then (d :: ds).map coerceCls else d :: ds).map (·.cls),
      ([] : List TLabel).map (·.cls)⟩, ?_, ?_⟩
    · rw [compute_stat]
      simp only [List.length_cons, List.length_nil]
      rw [if_neg (by omega), if_neg (by simp)]
    · cases sc <;> simp [niou, iouvDef]

/-- Witness for C4: a concrete image with one label and no detections
produces exactly the zero-row record. -/
theorem C4_witness :
    (compute_stat cmUnit false ([] : List Detection) [tl0]
        (none : Option Unit) (none : Option Unit) = some [emptyRec0] ∧
      emptyRec0 ∈ [emptyRec0]) ∧
    emptyRec0.correct_boxes = [] :=
  ⟨⟨rfl, List.mem_singleton.mpr rfl⟩,
   C4_degenerate_shapes.1 Unit Unit Unit cmUnit false [tl0] none none
     [emptyRec0] emptyRec0 rfl (List.mem_singleton.mpr rfl)⟩

/-- Each element `npUnique` keeps is an element of its input. -/
theorem npUnique_subset {key : MatchT → ℕ} {ms : List MatchT} {a : MatchT}
    (h : a ∈ npUnique key ms) : a ∈ ms := by
  rw [npUnique, List.mem_filterMap] at h
  obtain ⟨k, _, hfind⟩ := h
  exact List.mem_of_find?_eq_some hfind

/-- Pass `npUnique` de-duplicates: the kept rows have pairwise distinct keys. -/
theorem npUnique_key_pairwise (key : MatchT → ℕ) (ms : List MatchT) :
    (npUnique key ms).Pairwise fun a b => key a ≠ key b := by
  rw [npUnique]
  have hnd : (((ms.map key).insertionSort (· ≤ ·)).dedup).Nodup :=
    List.nodup_dedup _
  generalize ((ms.map key).insertionSort (· ≤ ·)).dedup = ks at hnd
  induction ks with
  | nil => simp
  | cons k ks ih =>
      rw [List.filterMap_cons]
      rcases hfind : ms.find? (fun m => key m == k) with _ | m
      · exact ih hnd.of_cons
      · refine List.Pairwise.cons ?_ (ih hnd.of_cons)
        intro b hb
        rw [List.mem_filterMap] at hb
        obtain ⟨k', hk', hfind'⟩ := hb
        have hkm : key m = k := by simpa using List.find?_some hfind
        have hkb : key b = k' := by simpa using List.find?_some hfind'
        have hk : k ∉ ks := (List.nodup_cons.mp hnd).1
        intro hcontra
        have hkk : k = k' := by rw [← hkm, hcontra, hkb]
        exact hk (hkk ▸ hk')

/-- The two-pass de-duplication leaves pairwise distinct detection indices
and pairwise distinct label indices. -/
theorem dedupMatches_pairwise (c : List MatchT) :
    (dedupMatches c).Pairwise fun a b => a.det ≠ b.det ∧ a.lab ≠ b.lab := by
  rw [dedupMatches]
  split
  · have hdet : (npUnique (·.det)
        (c.insertionSort fun a b => b.iou ≤ a.iou)).Pairwise
        fun a b => a.det ≠ b.det := npUnique_key_pairwise _ _
    have hlab : (npUnique (·.lab) (npUnique (·.det)
        (c.insertionSort fun a b => b.iou ≤ a.iou))).Pairwise
        fun a b => a.lab ≠ b.lab := npUnique_key_pairwise _ _
    have hsymm : Symmetric (fun a b : MatchT => a.det ≠ b.det) :=
      fun _ _ h => Ne.symm h
    refine hlab.imp_of_mem ?_
    intro a b ha hb hR
    have hne : a ≠ b := fun he => hR (he ▸ rfl)
    exact ⟨hdet.forall hsymm (npUnique_subset ha) (npUnique_subset hb) hne, hR⟩
  · rename_i h
    match c with
    | [] => simp
    | [m] => simp
    | a :: b :: t => simp only [List.length_cons] at h; omega

/-- C2: For every detections/labels input to `process_batch`, the
surviving matches are an exactly-once assignment: no detection index and no
label index appears in more than one surviving pair. -/
theorem C2_exactly_once_assignment (dets : List Detection)
    (labels : List Label) (iouv : List ℚ) :
    (matchesOf iouv dets labels).Pairwise
      fun a b => a.det ≠ b.det ∧ a.lab ≠ b.lab :=
  dedupMatches_pairwise _

/-- The fixed threshold vector is ascending. -/
theorem iouv_getD_mono (t1 t2 : ℕ) (h : t1 ≤ t2) (h2 : t2 < 10) :
    iouvDef.getD t1 0 ≤ iouvDef.getD t2 0 := by
  interval_cases t2 <;> interval_cases t1 <;> norm_num [iouvDef]

/-- Every row of the correctness matrix is either the untouched all-false
row or the per-threshold comparison row of some surviving match's IoU. -/
theorem correctOf_rows (n : ℕ) (iouv : List ℚ) (ms : List MatchT) :
    ∀ row ∈ correctOf n iouv ms,
      row = List.replicate iouv.length false ∨
      ∃ v, row = iouv.map fun t => decide (v ≥ t) := by
  rw [correctOf]
  have hbase : ∀ row ∈ List.replicate n (List.replicate iouv.length false),
      row = List.replicate iouv.length false ∨
      ∃ v, row = iouv.map fun t => decide (v ≥ t) :=
    fun row hr => Or.inl (List.eq_of_mem_replicate hr)
  generalize List.replicate n (List.replicate iouv.length false) = init
    at hbase ⊢
  induction ms generalizing init with
  | nil => simpa using hbase
  | cons m ms ih =>
      rw [List.foldl_cons]
      apply ih
      intro row hrow
      rcases List.mem_or_eq_of_mem_set hrow with hmem | heq
      · exact hbase row hmem
      · exact Or.inr ⟨m.iou, heq⟩

/-- C3: Every row of the matrix returned by `process_batch` is
monotonically non-increasing in the threshold index: truth at a higher
(stricter) threshold implies truth at every lower one, because a matched
pair with IoU `v` sets `true` exactly at the thresholds `≤ v` and the
threshold vector is ascending. -/
theorem C3_row_monotone (dets : List Detection) (labels : List Label)
    (i t1 t2 : ℕ) (h12 : t1 ≤ t2)
    (h : ((process_batch dets labels iouvDef).getD i []).getD t2 false
      = true) :
    ((process_batch dets labels iouvDef).getD i []).getD t1 false = true := by
  rw [process_batch] at h ⊢
  set M := correctOf dets.length iouvDef (matchesOf iouvDef dets labels)
    with hM
  by_cases hi : i < M.length
  case neg =>
    exfalso
    rw [List.getD_eq_getElem?_getD M, List.getElem?_eq_none (by omega)] at h
    simp at h
  case pos =>
    have hmem : M.getD i [] ∈ M := by
      rw [List.getD_eq_getElem?_getD M, List.getElem?_eq_getElem hi]
      exact List.getElem_mem _
    rw [hM] at hmem
    rcases correctOf_rows _ _ _ _ hmem with hr | ⟨v, hr⟩
    · exfalso
      rw [hr] at h
      rw [List.getD_eq_getElem?_getD, List.getElem?_replicate] at h
      by_cases ht : t2 < iouvDef.length <;> simp [ht] at h
    · rw [hr] at h ⊢
      have ht2 : t2 < iouvDef.length := by
        by_contra hge
        rw [List.getD_eq_getElem?_getD, List.getElem?_map,
          List.getElem?_eq_none (by simpa using hge)] at h
        simp at h
      have ht1 : t1 < iouvDef.length := lt_of_le_of_lt h12 ht2
      rw [List.getD_eq_getElem?_getD, List.getElem?_map,
        List.getElem?_eq_getElem ht2] at h
      rw [List.getD_eq_getElem?_getD, List.getElem?_map,
        List.getElem?_eq_getElem ht1]
      simp only [Option.map_some', Option.getD_some, decide_eq_true_eq]
        at h ⊢
      have hmono := iouv_getD_mono t1 t2 h12 (by simpa [iouvDef] using ht2)
      rw [List.getD_eq_getElem?_getD, List.getElem?_eq_getElem ht1,
        List.getD_eq_getElem?_getD, List.getElem?_eq_getElem ht2] at hmono
      simp only [Option.getD_some] at hmono
      exact le_trans hmono h

/-- A detection box identical to the ground-truth box of `lC1`
(IoU exactly 1). -/
def dPw : Detection := ⟨0, 0, 10, 10, 9/10, 0⟩

/-- Ground-truth label used by the concrete matching scenarios. -/
def lC1 : Label := ⟨0, 0, 0, 10, 10⟩

/-- A matching pipeline with exactly one candidate leaves it untouched
(the `x[0].shape[0] > 1` guard skips the de-duplication). -/
theorem matchesOf_single (d : Detection) (l : Label) (h : l.cls = d.cls)
    (g : boxIoU l d ≥ iouvDef.headD 0) :
    matchesOf iouvDef [d] [l] = [⟨0, 0, boxIoU l d⟩] := by
  simp only [matchesOf, candidatesFromMatrix, boxIoUMatrix, List.map_cons,
    List.map_nil, List.zip_cons_cons, List.zip_nil_right, List.enum,
    List.enumFrom, List.flatMap_cons, List.flatMap_nil, List.filterMap_cons,
    List.filterMap_nil]
  rw [if_pos ⟨g, h⟩, dedupMatches]
  simp

/-- Witness for C3: a perfect-overlap detection is true at threshold index
1, hence (by `C3_row_monotone`) also at index 0. -/
theorem C3_witness :
    ((0 : ℕ) ≤ 1 ∧
      ((process_batch [dPw] [lC1] iouvDef).getD 0 []).getD 1 false = true) ∧
    ((process_batch [dPw] [lC1] iouvDef).getD 0 []).getD 0 false = true := by
  have hiou : boxIoU lC1 dPw = 1 := by
    norm_num [boxIoU, lC1, dPw, max_def, min_def]
  have hm := matchesOf_single dPw lC1 rfl (by rw [hiou]; norm_num [iouvDef])
  have hEval :
      ((process_batch [dPw] [lC1] iouvDef).getD 0 []).getD 1 false = true := by
    rw [process_batch, hm, hiou]
    simp [correctOf, iouvDef]
    norm_num
  exact ⟨⟨by omega, hEval⟩, C3_row_monotone [dPw] [lC1] 0 0 1 (by omega) hEval⟩

/-- When two candidates tie for one label, the label de-duplication pass
runs on the *detection-index-sorted* output of the detection pass
(`np.unique` reordered it), so the surviving pair is the one with the
lowest detection index — not the one with the highest IoU. -/
theorem matchesOf_pair (d0 d1 : Detection) (l : Label)
    (h0 : l.cls = d0.cls) (h1 : l.cls = d1.cls)
    (g0 : boxIoU l d0 ≥ iouvDef.headD 0)
    (g1 : boxIoU l d1 ≥ iouvDef.headD 0) :
    matchesOf iouvDef [d0, d1] [l] = [⟨0, 0, boxIoU l d0⟩] := by
  simp only [matchesOf, candidatesFromMatrix, boxIoUMatrix, List.map_cons,
    List.map_nil, List.zip_cons_cons, List.zip_nil_right, List.enum,
    List.enumFrom, List.flatMap_cons, List.flatMap_nil, List.filterMap_cons,
    List.filterMap_nil]
  rw [if_pos ⟨g0, h0⟩, if_pos ⟨g1, h1⟩, dedupMatches]
  rw [if_pos (by simp)]
  rcases le_or_lt (boxIoU l d1) (boxIoU l d0) with hle | hlt
  · simp only [List.insertionSort, List.orderedInsert, hle, if_pos]
    simp [npUnique, List.insertionSort, List.orderedInsert, List.dedup]
  · simp only [List.insertionSort, List.orderedInsert, if_neg hlt.not_le]
    simp [npUnique, List.insertionSort, List.orderedInsert, List.dedup]

/-- C1 (amended): For one ground truth and two same-class detections
both above the 0.5 gate, the surviving match is always detection 0 — the
lower-indexed one — whatever the IoU or confidence ordering: only its row
gets the per-threshold truth values, the other row stays all-false. -/
theorem C1_lowest_index_survives (d0 d1 : Detection) (l : Label)
    (h0 : l.cls = d0.cls) (h1 : l.cls = d1.cls)
    (g0 : boxIoU l d0 ≥ iouvDef.headD 0)
    (g1 : boxIoU l d1 ≥ iouvDef.headD 0) :
    process_batch [d0, d1] [l] iouvDef =
      [iouvDef.map (fun t => decide (boxIoU l d0 ≥ t)),
       List.replicate 10 false] := by
  rw [process_batch, matchesOf_pair d0 d1 l h0 h1 g0 g1]
  simp [correctOf, iouvDef]

/-- Lower-IoU, lower-confidence detection of the C1 scenario
(IoU 0.5 with `lC1`). -/
def d0C1 : Detection := ⟨0, 0, 10, 5, 3/10, 0⟩

/-- Higher-IoU, higher-confidence detection of the C1 scenario
(IoU 0.9 with `lC1`). -/
def d1C1 : Detection := ⟨0, 0, 10, 9, 9/10, 0⟩

/-- IoU of the C1 scenario's first detection. -/
theorem boxIoU_lC1_d0C1 : boxIoU lC1 d0C1 = 1/2 := by
  norm_num [boxIoU, lC1, d0C1, max_def, min_def]

/-- IoU of the C1 scenario's second detection. -/
theorem boxIoU_lC1_d1C1 : boxIoU lC1 d1C1 = 9/10 := by
  norm_num [boxIoU, lC1, d1C1, max_def, min_def]

/-- C1 (counterexample): Two same-class detections both overlap one
ground truth above 0.5; detection 1 has the strictly higher IoU (0.9 vs
0.5) and the higher confidence, yet `process_batch` marks only detection 0
correct (row 0 true at threshold 0, row 1 all-false) — refuting the claim
that the highest-IoU detection survives the de-duplication. -/
theorem C1_counterexample :
    boxIoU lC1 d1C1 > boxIoU lC1 d0C1 ∧
    boxIoU lC1 d0C1 ≥ iouvDef.headD 0 ∧
    lC1.cls = d0C1.cls ∧ lC1.cls = d1C1.cls ∧
    d1C1.conf > d0C1.conf ∧
    process_batch [d0C1, d1C1] [lC1] iouvDef =
      [[true, false, false, false, false, false, false, false, false, false],
       List.replicate 10 false] := by
  refine ⟨by rw [boxIoU_lC1_d0C1, boxIoU_lC1_d1C1]; norm_num,
    by rw [boxIoU_lC1_d0C1]; norm_num [iouvDef], rfl, rfl,
    by norm_num [d0C1, d1C1], ?_⟩
  rw [process_batch, matchesOf_pair d0C1 d1C1 lC1 rfl rfl
    (by rw [boxIoU_lC1_d0C1]; norm_num [iouvDef])
    (by rw [boxIoU_lC1_d1C1]; norm_num [iouvDef])]
  rw [boxIoU_lC1_d0C1]
  simp [correctOf, iouvDef]
  norm_num

/-- Witness for the amended C1: the concrete scenario of the
counterexample instantiates `C1_lowest_index_survives`. -/
theorem C1_amended_witness :
    (lC1.cls = d0C1.cls ∧ lC1.cls = d1C1.cls ∧
      boxIoU lC1 d0C1 ≥ iouvDef.headD 0 ∧
      boxIoU lC1 d1C1 ≥ iouvDef.headD 0) ∧
    process_batch [d0C1, d1C1] [lC1] iouvDef =
      [iouvDef.map (fun t => decide (boxIoU lC1 d0C1 ≥ t)),
       List.replicate 10 false] := by
  have g0 : boxIoU lC1 d0C1 ≥ iouvDef.headD 0 := by
    rw [boxIoU_lC1_d0C1]; norm_num [iouvDef]
  have g1 : boxIoU lC1 d1C1 ≥ iouvDef.headD 0 := by
    rw [boxIoU_lC1_d1C1]; norm_num [iouvDef]
  exact ⟨⟨rfl, rfl, g0, g1⟩,
    C1_lowest_index_survives d0C1 d1C1 lC1 rfl rfl g0 g1⟩

/-- Length is invariant under the `maps[c] = ...` fold of `get_maps`. -/
theorem foldl_set_length (g : ℕ → ℚ) (pairs : List (ℕ × ℕ))
    (base : List ℚ) :
    (pairs.foldl (fun maps ic => maps.set ic.2 (g ic.1)) base).length
      = base.length := by
  induction pairs generalizing base with
  | nil => rfl
  | cons p ps ih => rw [List.foldl_cons, ih, List.length_set]

/-- Positions never assigned by the `get_maps` fold keep their base value. -/
theorem foldl_set_getElem?_notmem (g : ℕ → ℚ) (pairs : List (ℕ × ℕ))
    (base : List ℚ) (c : ℕ) (hc : c ∉ pairs.map Prod.snd) :
    (pairs.foldl (fun maps ic => maps.set ic.2 (g ic.1)) base)[c]?
      = base[c]? := by
  induction pairs generalizing base with
  | nil => rfl
  | cons p ps ih =>
      simp only [List.map_cons, List.mem_cons, not_or] at hc
      rw [List.foldl_cons, ih _ hc.2, List.getElem?_set_ne (Ne.symm hc.1)]

/-- A position assigned exactly once by the `get_maps` fold holds the
assigned value. -/
theorem foldl_set_getElem?_mem (g : ℕ → ℚ) (i c : ℕ) :
    ∀ (pairs : List (ℕ × ℕ)) (base : List ℚ),
      (pairs.map Prod.snd).Nodup → (i, c) ∈ pairs → c < base.length →
      (pairs.foldl (fun maps ic => maps.set ic.2 (g ic.1)) base)[c]?
        = some (g i) := by
  intro pairs
  induction pairs with
  | nil => intro base _ hmem _; cases hmem
  | cons p ps ih =>
      intro base hnd hmem hlt
      simp only [List.map_cons, List.nodup_cons] at hnd
      rw [List.foldl_cons]
      rcases List.mem_cons.mp hmem with heq | hm
      · have hp : p = (i, c) := heq.symm
        subst hp
        rw [foldl_set_getElem?_notmem _ _ _ _ hnd.1]
        exact List.getElem?_set_self hlt
      · exact ih _ hnd.2 hm (by rw [List.length_set]; exact hlt)

/-- C7: For a well-formed metric (class indices below `nc` and without
duplicates, as `ap_per_class` constructs them), `get_maps nc` has length
exactly `nc`; position `c` holds the per-class mean AP `ap[i]` whenever
`ap_class_index[i] = c`, and the global mean AP `map` everywhere else. -/
theorem C7_get_maps_dense (m : Metric) (nc : ℕ)
    (hlt : ∀ c ∈ m.ap_class_index, c < nc) (hnd : m.ap_class_index.Nodup) :
    (m.get_maps nc).length = nc ∧
    (∀ i c, m.ap_class_index[i]? = some c →
      (m.get_maps nc)[c]? = some (m.ap.getD i 0)) ∧
    (∀ c, c < nc → c ∉ m.ap_class_index →
      (m.get_maps nc)[c]? = some m.map) := by
  rw [Metric.get_maps]
  refine ⟨?_, ?_, ?_⟩
  · exact (foldl_set_length (fun i => m.ap.getD i 0) m.ap_class_index.enum
      (List.replicate nc m.map)).trans (List.length_replicate nc _)
  · intro i c hic
    have hpair : (i, c) ∈ m.ap_class_index.enum :=
      List.mk_mem_enum_iff_getElem?.mpr hic
    have hcnc : c < nc := hlt c (List.getElem?_mem hic)
    exact foldl_set_getElem?_mem (fun i => m.ap.getD i 0) i c
      m.ap_class_index.enum (List.replicate nc m.map)
      (by rw [List.enum_map_snd]; exact hnd) hpair
      (by rw [List.length_replicate]; exact hcnc)
  · intro c hc hcnot
    exact (foldl_set_getElem?_notmem (fun i => m.ap.getD i 0)
      m.ap_class_index.enum (List.replicate nc m.map) c
      (by rw [List.enum_map_snd]; exact hcnot)).trans
      (by rw [List.getElem?_replicate, if_pos hc])

/-- A concrete two-class metric used by the C7 witness. -/
def m7 : Metric := ⟨[], [], [], [[1, 1], [0, 0]], [0, 2]⟩

/-- Witness for C7 at a concrete metric with classes 0 and 2 among 4. -/
theorem C7_witness :
    ((∀ c ∈ m7.ap_class_index, c < 4) ∧ m7.ap_class_index.Nodup) ∧
    (m7.get_maps 4).length = 4 :=
  ⟨⟨by decide, by decide⟩, (C7_get_maps_dense m7 4 (by decide) (by decide)).1⟩

/-- C8: If every entry of every recorded correctness matrix is false,
`after_infer` skips the per-class aggregation (`box_or_mask_any` is false)
and leaves the metric untouched; the never-updated metric reports
`map = map50 = mp = mr = 0`. -/
theorem C8_zero_true_positives (recs : List StatRecord)
    (res : MetricResults) (h1 : recs ≠ [])
    (h2 : ∀ r ∈ recs, (∀ row ∈ r.correct_boxes, ∀ b ∈ row, b = false) ∧
      (∀ row ∈ r.correct_masks, ∀ b ∈ row, b = false)) :
    after_infer_metric recs res freshMetric = some freshMetric ∧
    freshMetric.map = 0 ∧ freshMetric.map50 = 0 ∧
    freshMetric.mp = 0 ∧ freshMetric.mr = 0 := by
  refine ⟨?_, rfl, rfl, rfl, rfl⟩
  have hmask :
      ((recs.map (·.correct_masks)).flatten).any (fun row => row.any id)
        = false := by
    simp only [List.any_eq_false, List.mem_flatten, List.mem_map]
    rintro row ⟨mats, ⟨r, hr, rfl⟩, hrowm⟩
    simp only [Bool.not_eq_true, List.any_eq_false]
    intro b hb
    simp only [id, Bool.not_eq_true]
    exact (h2 r hr).2 row hrowm b hb
  have hbox :
      ((recs.map (·.correct_boxes)).flatten).any (fun row => row.any id)
        = false := by
    simp only [List.any_eq_false, List.mem_flatten, List.mem_map]
    rintro row ⟨mats, ⟨r, hr, rfl⟩, hrowm⟩
    simp only [Bool.not_eq_true, List.any_eq_false]
    intro b hb
    simp only [id, Bool.not_eq_true]
    exact (h2 r hr).1 row hrowm b hb
  simp only [after_infer_metric, hmask, hbox, Bool.or_self,
    Bool.false_eq_true, if_false, List.length_eq_zero, h1]

/-- An all-false record of one detection at two thresholds. -/
def rec8 : StatRecord := ⟨[[false, false]], [[false, false]], [9/10], [0], [0]⟩

/-- An empty aggregation result. -/
def res8 : MetricResults := ⟨[], [], [], [], []⟩

/-- Witness for C8: one all-false record leaves the fresh metric alone. -/
theorem C8_witness :
    (([rec8] : List StatRecord) ≠ [] ∧
      ∀ r ∈ [rec8], (∀ row ∈ r.correct_boxes, ∀ b ∈ row, b = false) ∧
        (∀ row ∈ r.correct_masks, ∀ b ∈ row, b = false)) ∧
    after_infer_metric [rec8] res8 freshMetric = some freshMetric := by
  have hall : ∀ r ∈ [rec8],
      (∀ row ∈ r.correct_boxes, ∀ b ∈ row, b = false) ∧
      (∀ row ∈ r.correct_masks, ∀ b ∈ row, b = false) := by
    simp [rec8]
  exact ⟨⟨by simp, hall⟩,
    (C8_zero_true_positives [rec8] res8 (by simp) hall).1⟩

/-- A detection without its class column (columns `0:5` of a prediction
row), for stating that `compute_stat` in `single_cls` mode ignores the
incoming class column. -/
structure DetNoCls where
  x1 : ℚ
  y1 : ℚ
  x2 : ℚ
  y2 : ℚ
  conf : ℚ

/-- Forget the class column of a prediction row. -/
def stripCls (d : Detection) : DetNoCls := ⟨d.x1, d.y1, d.x2, d.y2, d.conf⟩

/-- Detection lists agreeing outside the class column coerce identically. -/
theorem coerce_eq_of_strip_eq : ∀ {l1 l2 : List Detection},
    l1.map stripCls = l2.map stripCls →
    l1.map coerceCls = l2.map coerceCls := by
  intro l1
  induction l1 with
  | nil =>
      intro l2 h
      cases l2 with
      | nil => rfl
      | cons e es => simp at h
  | cons d ds ih =>
      intro l2 h
      cases l2 with
      | nil => simp at h
      | cons e es =>
          simp only [List.map_cons, List.cons.injEq] at h ⊢
          obtain ⟨hde, hrest⟩ := h
          refine ⟨?_, ih hrest⟩
          cases d
          cases e
          simp only [stripCls, DetNoCls.mk.injEq] at hde
          simp [coerceCls, hde.1, hde.2.1, hde.2.2.1, hde.2.2.2.1,
            hde.2.2.2.2]

/-- C9: In `single_cls` mode `compute_stat` coerces every predicted
class id to 0 before the box and mask matchers run: its result is
invariant under arbitrary changes of the incoming class column, and the
detections handed to the matchers all carry class 0. -/
theorem C9_single_cls_coercion {π μ σ : Type}
    (cm : π → μ → List Detection → List Label → List (List ℚ) × σ)
    (p1 p2 : List Detection) (tl : List TLabel) (proto : Option π)
    (gt : Option μ) (h : p1.map stripCls = p2.map stripCls) :
    compute_stat cm true p1 tl proto gt
      = compute_stat cm true p2 tl proto gt ∧
    ∀ d ∈ p1.map coerceCls, d.cls = 0 := by
  constructor
  · have hlen : p1.length = p2.length := by
      have := congrArg List.length h
      simpa using this
    have hco : p1.map coerceCls = p2.map coerceCls := coerce_eq_of_strip_eq h
    simp only [compute_stat, hlen, hco, if_true]
  · intro d hd
    rw [List.mem_map] at hd
    obtain ⟨e, _, rfl⟩ := hd
    rfl

/-- Two one-detection lists agreeing except in the class column. -/
def p1w : List Detection := [⟨1, 2, 3, 4, 1/2, 5⟩]

/-- Same as `p1w` with a different class id. -/
def p2w : List Detection := [⟨1, 2, 3, 4, 1/2, 7⟩]

/-- Witness for C9: concrete class-column change leaves the stats alone. -/
theorem C9_witness :
    p1w.map stripCls = p2w.map stripCls ∧
    compute_stat cmUnit true p1w [tl0] (none : Option Unit)
        (none : Option Unit)
      = compute_stat cmUnit true p2w [tl0] none none :=
  ⟨rfl, (C9_single_cls_coercion cmUnit p1w p2w [tl0] none none rfl).1⟩

/-- C10: The per-image step of `run` clones the prediction tensor
before `compute_stat` mutates it: after the step, `save_one_txt` /
`save_one_json` read the original tensor unchanged (classes and
coordinates intact), while the mutated clone handed to the matchers
carries only class 0. -/
theorem C10_clone_frame (s : Store) (predId : ℕ) (h : predId < s.length) :
    (runImageSave true s predId).2.1 = s.getD predId [] ∧
    ∀ d ∈ (runImageSave true s predId).2.2, d.cls = 0 := by
  rw [runImageSave]
  simp only [cloneTensor]
  constructor
  · split
    · rw [coerceInPlace]
      rw [List.getD_eq_getElem?_getD,
        List.getElem?_set_ne (by omega : s.length ≠ predId),
        List.getElem?_append_left h, ← List.getD_eq_getElem?_getD]
    · rw [List.getD_eq_getElem?_getD, List.getElem?_append_left h,
        ← List.getD_eq_getElem?_getD]
  · split
    · rw [coerceInPlace]
      intro d hd
      rw [List.getD_eq_getElem?_getD] at hd
      rw [List.getElem?_set_self (by rw [List.length_append]; simp)] at hd
      simp only [Option.getD_some] at hd
      rw [List.mem_map] at hd
      obtain ⟨e, _, rfl⟩ := hd
      rfl
    · rename_i hcond
      intro d hd
      rw [List.getD_eq_getElem?_getD, List.getElem?_concat_length] at hd
      simp only [Option.getD_some] at hd
      have hlen : (s.getD predId []).length = 0 := by
        by_contra hne
        exact hcond ⟨trivial, by
          rw [List.getD_eq_getElem?_getD, List.getElem?_concat_length]
          simpa using hne⟩
      rw [List.length_eq_zero] at hlen
      rw [hlen] at hd
      cases hd

/-- A prediction row with a nonzero class id, for the C10 witness. -/
def dw : Detection := ⟨1, 1, 2, 2, 1/2, 3⟩

/-- Witness for C10: a one-tensor store; the saved tensor is the original. -/
theorem C10_witness :
    0 < ([[dw]] : Store).length ∧
    (runImageSave true [[dw]] 0).2.1 = ([[dw]] : Store).getD 0 [] :=
  ⟨by simp, (C10_clone_frame [[dw]] 0 (by simp)).1⟩

end YoloEval
